import Mathlib

/-!
Verification of the EFI file-system extractor core (`efifile.c`):
the BCD patcher (`efi_patch_bcd`), the name classifier inside
`efi_extract`, the positioned-read adapter (`efi_read_file`), the
architecture boot-name resolver (`efi_bootarch`) and the directory-scan
loop of `efi_extract`.

Modelling conventions:
  * machine bytes are `Nat` values `< 256`; wide characters (CHAR16 /
    `wchar_t` under `-fshort-wchar`) are 16-bit units stored
    little-endian, two bytes per unit;
  * `size_t` arithmetic is modelled as `Nat` arithmetic modulo `2 ^ 64`
    (the build targets a 64-bit machine), written out explicitly where
    the C source can wrap;
  * a NUL-terminated wide string is modelled as the `List Nat` of its
    code units before the terminator (no embedded NUL);
  * a memory access outside the supplied buffer is modelled as `none`
    (the C behaviour there is undefined);
  * `die ( ... )` (fatal process termination) is modelled as a
    distinguished outcome value.
-/

/-- The `size_t` modulus: the scan indices and lengths are 64-bit unsigned. -/
def W64 : Nat := 2 ^ 64

/-- Modelled from the spec: ASCII case folding used by the
case-insensitive wide comparison (`wcscasecmp` / `towlower` live outside
`src/`; the spec only states that matching is case-insensitive). -/
def towlower (c : Nat) : Nat := if 65 ≤ c ∧ c ≤ 90 then c + 32 else c

/-- Read one little-endian 16-bit unit at byte offset `i` of `buf`,
faulting (`none`) if either byte is outside the buffer. -/
def readUnit (buf : List Nat) (i : Nat) : Option Nat :=
  match buf[i]?, buf[i + 1]? with
  | some lo, some hi => some (lo + 256 * hi)
  | _, _ => none

/-- The 16-bit units of `L".exe"` including its NUL terminator:
`'.', 'e', 'x', 'e', 0` — `wcscasecmp` compares through the terminator. -/
def searchUnits : List Nat := [46, 101, 120, 101, 0]

/-- The ten bytes of `replace` (`L".efi"` plus NUL terminator,
little-endian): `memcpy ( data + i, replace, sizeof ( replace ) )`
copies all ten bytes. -/
def replaceBytes : List Nat := [46, 0, 101, 0, 102, 0, 105, 0, 0, 0]

/-- Model of `wcscasecmp ( data + i, search ) == 0` where the left side is raw
buffer memory read as 16-bit units starting at byte offset `i` and the
right side is the unit list `s`:  compare case-insensitively unit by
unit, stopping at the first mismatch or at the common terminator.
`none` models a read outside the buffer. -/
def wideMatch : List Nat → Nat → List Nat → Option Bool
  | [], _, _ => some true
  | c :: rest, i, buf =>
    match readUnit buf i with
    | none => none
    | some u =>
      if towlower u = towlower c then
        if c = 0 then some true else wideMatch rest (i + 2) buf
      else some false

/-- Write the bytes `bs` into `buf` starting at index `i` (the
`memcpy` of the patcher; callers establish that the window is inside
the buffer). -/
def writeList : List Nat → Nat → List Nat → List Nat
  | buf, _, [] => buf
  | buf, i, b :: rest => writeList (buf.set i b) (i + 1) rest

/-- One pass of the patch loop
`for ( i = 0 ; i < ( len - sizeof ( search ) ) ; i++ )`, with the
number of remaining iterations as first argument: at each byte offset
compare the window against `search`, and on a match overwrite it with
`replace`.  A faulting read aborts the whole computation with `none`. -/
def bcdLoop : Nat → Nat → List Nat → Option (List Nat)
  | 0, _, buf => some buf
  | fuel + 1, i, buf =>
    match wideMatch searchUnits i buf with
    | none => none
    | some m => bcdLoop fuel (i + 1) (if m then writeList buf i replaceBytes else buf)

/-- The loop bound `len - sizeof ( search )` computed in `size_t`
arithmetic: it wraps around when `len < 10`. -/
def bcdBound (len : Nat) : Nat := (len + W64 - 10) % W64

/-- Model of `efi_patch_bcd`: do nothing when `cmdline_rawbcd` is set, otherwise
scan the buffer and patch every detected `.exe` window to `.efi`.
Returns `none` when the scan reads outside the buffer. -/
def efi_patch_bcd (rawbcd : Bool) (buf : List Nat) : Option (List Nat) :=
  if rawbcd then some buf else bcdLoop (bcdBound buf.length) 0 buf

/-- Whether the window at byte offset `i` of `buf` case-insensitively
equals the `.exe` token together with its terminator. -/
def matchAt (buf : List Nat) (i : Nat) : Bool :=
  match wideMatch searchUnits i buf with
  | some true => true
  | _ => false

/-- Reference patching pass: replace, in increasing position order,
every window of the original buffer that matched, all match positions
being decided against the original content. -/
def patchSim (orig : List Nat) : Nat → List Nat
  | 0 => orig
  | n + 1 =>
    if matchAt orig n then writeList (patchSim orig n) n replaceBytes else patchSim orig n

/-- A ten-byte buffer holding exactly `L".exe"` with its terminator:
its only match window ends flush with the end of the buffer. -/
def exeBuf : List Nat := [46, 0, 101, 0, 120, 0, 101, 0, 0, 0]

/-- A twelve-byte buffer whose `L".exe"` window at offset 0 lies inside
the scan range. -/
def demoBuf : List Nat := [46, 0, 101, 0, 120, 0, 101, 0, 0, 0, 65, 0]

/-- Read the CHAR16 at index `i` of a NUL-terminated wide string whose
content (terminator excluded) is `name`: indices below the length give
the stored units, index `length` reads the terminator itself, and
anything beyond is outside the string (`none`). -/
def wideGet (name : List Nat) (i : Nat) : Option Nat :=
  if i < name.length then name[i]? else if i = name.length then some 0 else none

/-- Model of `wcscasecmp ( name + start, s ) == 0` where `name + start` may be a
wild pointer (the `.wim` suffix check computes `start` by unsigned
subtraction): compare case-insensitively from CHAR16 index `start`,
stopping at the first mismatch or common terminator and faulting on any
access outside the string. -/
def wideStrMatch : List Nat → Nat → List Nat → Option Bool
  | [], _, _ => some true
  | c :: rest, i, name =>
    match wideGet name i with
    | none => none
    | some u =>
      if towlower u = towlower c then
        if c = 0 then some true else wideStrMatch rest (i + 1) name
      else some false

/-- The units of `L".wim"` together with its terminator. -/
def wimSuffixZ : List Nat := [46, 119, 105, 109, 0]

/-- The suffix test
`wcscasecmp ( ( name + ( wcslen ( name ) - 4 ) ), L".wim" ) == 0` with
the `size_t` subtraction taken literally: for names shorter than four
characters the start index wraps around and the comparison begins far
outside the name buffer. -/
def wimCheck (name : List Nat) : Option Bool :=
  wideStrMatch wimSuffixZ ((name.length + W64 - 4) % W64) name

/-- Model of `wcscasecmp ( a, b ) == 0` for two whole NUL-free wide strings:
case-insensitive equality, unit by unit through the terminators. -/
def wcscasecmpZ : List Nat → List Nat → Bool
  | [], [] => true
  | [], _ :: _ => false
  | _ :: _, [] => false
  | x :: xs, y :: ys => if towlower x = towlower y then wcscasecmpZ xs ys else false

/-- The units of `L"bootmgfw.efi"`. -/
def bootmgfwStr : List Nat := [98, 111, 111, 116, 109, 103, 102, 119, 46, 101, 102, 105]

/-- The units of `L"BCD"`. -/
def bcdStr : List Nat := [66, 67, 68]

/-- The scan of `efi_bootarch`: walk the compiled-in path and remember
the position just after the most recent backslash. -/
def bootarchLoop : List Nat → List Nat → List Nat
  | acc, [] => acc
  | acc, c :: rest => if c = 92 then bootarchLoop rest rest else bootarchLoop acc rest

/-- Model of `efi_bootarch`: the final path component of the removable-media
boot path (`EFI_REMOVABLE_MEDIA_FILE_NAME` is a compiled-in constant;
the model takes the path as a parameter). -/
def efi_bootarch (path : List Nat) : List Nat := bootarchLoop path path

/-- The first special case of `efi_extract`:
`wcscasecmp ( name, efi_bootarch() ) == 0 ||
 wcscasecmp ( name, L"bootmgfw.efi" ) == 0`. -/
def isBootName (arch name : List Nat) : Bool :=
  wcscasecmpZ name arch || wcscasecmpZ name bootmgfwStr

/-- Classification tag assigned by the special-case chain of
`efi_extract`. -/
inductive FileClass
  | boot
  | bcd
  | wim
deriving DecidableEq

/-- The `else if` chain of `efi_extract`: boot names first, then `BCD`,
then the `.wim` suffix test; `none` models the unguarded suffix read
faulting, `some none` a name matching no rule. -/
def classify (arch name : List Nat) : Option (Option FileClass) :=
  if isBootName arch name then some (some FileClass.boot)
  else if wcscasecmpZ name bcdStr then some (some FileClass.bcd)
  else
    match wimCheck name with
    | none => none
    | some true => some (some FileClass.wim)
    | some false => some none

/-- The patch strategy stored in `vdisk_file.patch`. -/
inductive PatchTag
  | noPatch
  | bcdPatcher
  | wimPatch
deriving DecidableEq

/-- Patch strategy attached for a classification: `efi_patch_bcd` for
`BCD`, the external `patch_wim` for `.wim` names, none otherwise. -/
def patchOf : Option FileClass → PatchTag
  | some FileClass.bcd => PatchTag.bcdPatcher
  | some FileClass.wim => PatchTag.wimPatch
  | _ => PatchTag.noPatch

/-- One `vdisk_files` descriptor: the narrowed stored name, the file
size and the attached patch strategy (the read strategy is the same
`efi_read_file` adapter for every entry). -/
structure VdiskFile where
  name : List Nat
  len : Nat
  patch : PatchTag
deriving DecidableEq

/-- The state built by the scan loop: the descriptor table and the
`bootmgfw` marker buffer. -/
structure EState where
  table : List VdiskFile
  marker : List Nat
deriving DecidableEq

/-- How a scan ends: normally, or at one of the `die` calls
(`"Too many files"`, the end-of-scan `"FATAL: no %ls or bootmgfw.efi
found"` carrying the expected architecture name, or the undefined
out-of-bounds suffix read). -/
inductive Outcome
  | ok
  | tooManyFiles
  | noBootFile (expected : List Nat)
  | oobFault
deriving DecidableEq

/-- Model of `snprintf ( vfile->name, sizeof ( vfile->name ), "%ls", name )`:
keep at most `cap - 1` characters and narrow each CHAR16 to a byte. -/
def narrowName (cap : Nat) (name : List Nat) : List Nat :=
  (name.take (cap - 1)).map (fun c => c % 256)

/-- Model of `memcpy ( bootmgfw, name, sizeof ( bootmgfw ) - sizeof ( wchar_t ) )`:
overwrite the first `cap - 1` units of the marker with the leading
units of the source buffer (zero-filled past the name), leaving the
final unit untouched. -/
def updateMarker (cap : Nat) (marker name : List Nat) : List Nat :=
  (List.range cap).map (fun j => if j < cap - 1 then name.getD j 0 else marker.getD j 0)

/-- A name as it ends up in the marker buffer: `cap - 1` copied units
then the untouched zero terminator. -/
def padName (cap : Nat) (name : List Nat) : List Nat :=
  (List.range cap).map (fun j => if j < cap - 1 then name.getD j 0 else 0)

/-- The descriptor produced for one directory entry. -/
def descOf (cap : Nat) (arch : List Nat) (p : List Nat × Nat) : VdiskFile :=
  ⟨narrowName cap p.1, p.2, patchOf ((classify arch p.1).getD none)⟩

/-- One iteration of the scan loop: capacity check first (`die` before
adding a descriptor beyond the limit), then the descriptor is added,
then the special-case chain runs (a faulting suffix read stops the scan
with the descriptor already in the table and no patch attached). -/
def stepEntry (cap maxFiles : Nat) (arch : List Nat) (st : EState)
    (name : List Nat) (size : Nat) : EState × Option Outcome :=
  if maxFiles ≤ st.table.length then (st, some Outcome.tooManyFiles)
  else
    match classify arch name with
    | none =>
      (⟨st.table ++ [⟨narrowName cap name, size, PatchTag.noPatch⟩], st.marker⟩,
       some Outcome.oobFault)
    | some tag =>
      (⟨st.table ++ [⟨narrowName cap name, size, patchOf tag⟩],
        if tag = some FileClass.boot then updateMarker cap st.marker name else st.marker⟩,
       none)

/-- The scan loop over the remaining directory entries. -/
def runEntries (cap maxFiles : Nat) (arch : List Nat) :
    EState → List (List Nat × Nat) → EState × Option Outcome
  | st, [] => (st, none)
  | st, (name, size) :: rest =>
    match stepEntry cap maxFiles arch st name size with
    | (st2, none) => runEntries cap maxFiles arch st2 rest
    | (st2, some o) => (st2, some o)

/-- Model of `efi_extract` over an already-enumerated entry list: run the scan
from the empty table and the zero-initialized marker, then apply the
end-of-scan check `if ( ! bootmgfw[0] )`.  `cap` is the size of the
name buffers, `maxFiles` the `VDISK_MAX_FILES` capacity (compile-time
constants outside `src/`, taken as parameters). -/
def efi_extract (cap maxFiles : Nat) (path : List Nat)
    (entries : List (List Nat × Nat)) : EState × Outcome :=
  match runEntries cap maxFiles (efi_bootarch path) ⟨[], List.replicate cap 0⟩ entries with
  | (st, some o) => (st, o)
  | (st, none) =>
    if st.marker.getD 0 0 = 0 then (st, Outcome.noBootFile (efi_bootarch path))
    else (st, Outcome.ok)

/-- The marker value produced by a completed scan, starting from
`marker`. -/
def foldMarker (cap : Nat) (arch marker : List Nat) : List (List Nat × Nat) → List Nat
  | [] => marker
  | p :: rest =>
    foldMarker cap arch
      (if isBootName arch p.1 then updateMarker cap marker p.1 else marker) rest

/-- The name of the last boot-matching entry of a scan, if any. -/
def lastBoot (arch : List Nat) : List (List Nat × Nat) → Option (List Nat)
  | [] => none
  | p :: rest =>
    match lastBoot arch rest with
    | some nm => some nm
    | none => if isBootName arch p.1 then some p.1 else none

/-- How a positioned read ends: `die` at the seek, `die` at the read
(each carrying the raw status code), or normal return with however many
bytes the firmware delivered. -/
inductive ReadOutcome
  | fatalSeek (status : Nat)
  | fatalRead (status : Nat)
  | done (delivered : Nat)
deriving DecidableEq

/-- Modelled from the spec at the firmware boundary: `SetPosition` and
`Read` are external protocol calls, so their status codes and the byte
count they deliver are inputs here.  `efi_read_file` dies on a non-zero
status from either call and otherwise returns with whatever count the
firmware delivered (`requested` is the length handed to `Read` as the
initial in-out size). -/
def efi_read_file (seekStatus readStatus delivered requested : Nat) : ReadOutcome :=
  if seekStatus ≠ 0 then ReadOutcome.fatalSeek seekStatus
  else if readStatus ≠ 0 then ReadOutcome.fatalRead readStatus
  else ReadOutcome.done delivered

/-- A short path `"P\\BB"` whose final component is `"BB"`. -/
def cePath : List Nat := [80, 92, 66, 66]

/-- Two boot-matching entries: `"bb"` (architecture match for `cePath`)
and then `"bootmgfw.efi"`. -/
def ceEntries9 : List (List Nat × Nat) := [([98, 98], 0), (bootmgfwStr, 0)]

/-- A one-character name `"a"` followed by `"b.wim"`. -/
def ceEntries6 : List (List Nat × Nat) := [([97], 0), ([98, 46, 119, 105, 109], 0)]

/-- Two entries both named `"bootmgfw.efi"`. -/
def ceEntries7 : List (List Nat × Nat) := [(bootmgfwStr, 0), (bootmgfwStr, 0)]

/-- Entries `"bootmgfw.efi"`, `"x.wim"`, `"BCD"`. -/
def w6entries : List (List Nat × Nat) :=
  [(bootmgfwStr, 1), ([120, 46, 119, 105, 109], 2), (bcdStr, 3)]

/-- A single `"BCD"` entry. -/
def w7entries : List (List Nat × Nat) := [(bcdStr, 1)]

/-- A single `"bootmgfw.efi"` entry. -/
def w9entries : List (List Nat × Nat) := [(bootmgfwStr, 0)]

/-- A single `"bootmgfw.efi"` entry of size 5. -/
def w10entries : List (List Nat × Nat) := [(bootmgfwStr, 5)]

theorem towlower_inv_46 {u : Nat} (h : towlower u = 46) : u = 46 := by
  unfold towlower at h; split at h <;> omega

theorem towlower_inv_101 {u : Nat} (h : towlower u = 101) : u = 101 ∨ u = 69 := by
  unfold towlower at h; split at h <;> omega

theorem towlower_inv_120 {u : Nat} (h : towlower u = 120) : u = 120 ∨ u = 88 := by
  unfold towlower at h; split at h <;> omega

theorem towlower_inv_0 {u : Nat} (h : towlower u = 0) : u = 0 := by
  unfold towlower at h; split at h <;> omega

theorem readUnit_some {buf : List Nat} {i u : Nat} (h : readUnit buf i = some u) :
    ∃ lo hi, buf[i]? = some lo ∧ buf[i + 1]? = some hi ∧ u = lo + 256 * hi := by
  unfold readUnit at h
  cases h1 : buf[i]? with
  | none => rw [h1] at h; cases h
  | some lo =>
    cases h2 : buf[i + 1]? with
    | none => rw [h1, h2] at h; cases h
    | some hi =>
      rw [h1, h2] at h
      exact ⟨lo, hi, rfl, rfl, (Option.some_inj.mp h).symm⟩

theorem matchAt_true_iff {buf : List Nat} {i : Nat} :
    matchAt buf i = true ↔ wideMatch searchUnits i buf = some true := by
  unfold matchAt
  cases h : wideMatch searchUnits i buf with
  | none => simp
  | some b => cases b <;> simp

theorem wideMatch_cons_true {c : Nat} {rest : List Nat} {i : Nat} {buf : List Nat}
    (h : wideMatch (c :: rest) i buf = some true) (hc : c ≠ 0) :
    ∃ lo hi, buf[i]? = some lo ∧ buf[i + 1]? = some hi ∧
      towlower (lo + 256 * hi) = towlower c ∧ wideMatch rest (i + 2) buf = some true := by
  rw [wideMatch] at h
  cases h0 : readUnit buf i with
  | none => rw [h0] at h; cases h
  | some u =>
    rw [h0] at h
    simp only [] at h
    by_cases e : towlower u = towlower c
    · rw [if_pos e, if_neg hc] at h
      obtain ⟨lo, hi, h1, h2, h3⟩ := readUnit_some h0
      exact ⟨lo, hi, h1, h2, by rw [← h3]; exact e, h⟩
    · rw [if_neg e] at h; cases h

theorem wideMatch_zero_true {rest : List Nat} {i : Nat} {buf : List Nat}
    (h : wideMatch (0 :: rest) i buf = some true) :
    buf[i]? = some 0 ∧ buf[i + 1]? = some 0 := by
  rw [wideMatch] at h
  cases h0 : readUnit buf i with
  | none => rw [h0] at h; cases h
  | some u =>
    rw [h0] at h
    simp only [] at h
    by_cases e : towlower u = towlower 0
    · obtain ⟨lo, hi, h1, h2, h3⟩ := readUnit_some h0
      have hu : u = 0 := towlower_inv_0 (e.trans (by decide))
      have hlo : lo = 0 := by omega
      have hhi : hi = 0 := by omega
      exact ⟨hlo ▸ h1, hhi ▸ h2⟩
    · rw [if_neg e] at h; cases h

/-- A successful `.exe`-window match pins down the ten bytes of the
window: little-endian units `'.', 'e'/'E', 'x'/'X', 'e'/'E', 0`. -/
theorem matchAt_bytes {buf : List Nat} {i : Nat} (h : matchAt buf i = true) :
    buf[i]? = some 46 ∧ buf[i + 1]? = some 0 ∧
    (buf[i + 2]? = some 101 ∨ buf[i + 2]? = some 69) ∧ buf[i + 3]? = some 0 ∧
    (buf[i + 4]? = some 120 ∨ buf[i + 4]? = some 88) ∧ buf[i + 5]? = some 0 ∧
    (buf[i + 6]? = some 101 ∨ buf[i + 6]? = some 69) ∧ buf[i + 7]? = some 0 ∧
    buf[i + 8]? = some 0 ∧ buf[i + 9]? = some 0 := by
  rw [matchAt_true_iff, searchUnits] at h
  obtain ⟨l0, h0, g0, g1, t0, h⟩ := wideMatch_cons_true h (by omega)
  obtain ⟨l1, h1, g2, g3, t1, h⟩ := wideMatch_cons_true h (by omega)
  obtain ⟨l2, h2, g4, g5, t2, h⟩ := wideMatch_cons_true h (by omega)
  obtain ⟨l3, h3, g6, g7, t3, h⟩ := wideMatch_cons_true h (by omega)
  obtain ⟨g8, g9⟩ := wideMatch_zero_true h
  have e0 : l0 + 256 * h0 = 46 := towlower_inv_46 (t0.trans (by decide))
  have e1 : l1 + 256 * h1 = 101 ∨ l1 + 256 * h1 = 69 :=
    towlower_inv_101 (t1.trans (by decide))
  have e2 : l2 + 256 * h2 = 120 ∨ l2 + 256 * h2 = 88 :=
    towlower_inv_120 (t2.trans (by decide))
  have e3 : l3 + 256 * h3 = 101 ∨ l3 + 256 * h3 = 69 :=
    towlower_inv_101 (t3.trans (by decide))
  have f0 : l0 = 46 := by omega
  have f0h : h0 = 0 := by omega
  have f1 : l1 = 101 ∨ l1 = 69 := by omega
  have f1h : h1 = 0 := by omega
  have f2 : l2 = 120 ∨ l2 = 88 := by omega
  have f2h : h2 = 0 := by omega
  have f3 : l3 = 101 ∨ l3 = 69 := by omega
  have f3h : h3 = 0 := by omega
  refine ⟨f0 ▸ g0, f0h ▸ g1, ?_, f1h ▸ g3, ?_, f2h ▸ g5, ?_, f3h ▸ g7, ?_, ?_⟩
  · rcases f1 with f | f
    · exact Or.inl (f ▸ g2)
    · exact Or.inr (f ▸ g2)
  · rcases f2 with f | f
    · exact Or.inl (f ▸ g4)
    · exact Or.inr (f ▸ g4)
  · rcases f3 with f | f
    · exact Or.inl (f ▸ g6)
    · exact Or.inr (f ▸ g6)
  · simpa using g8
  · simpa using g9

theorem getElem?_some_lt {l : List Nat} {n a : Nat} (h : l[n]? = some a) : n < l.length :=
  (List.getElem?_eq_some.mp h).1

/-- A matched window lies inside the buffer. -/
theorem matchAt_lt_length {buf : List Nat} {i : Nat} (h : matchAt buf i = true) :
    i + 10 ≤ buf.length := by
  have h9 := (matchAt_bytes h).2.2.2.2.2.2.2.2.2
  have := getElem?_some_lt h9
  omega

/-- Two `.exe`-window matches can never overlap: the byte values forced
by a match at `i` rule out a window start anywhere in the following
nine byte positions. -/
theorem matchAt_no_overlap {buf : List Nat} {i d : Nat}
    (h1 : matchAt buf i = true) (h2 : matchAt buf (i + d) = true)
    (hd1 : 1 ≤ d) (hd9 : d ≤ 9) : False := by
  obtain ⟨a0, a1, a2, a3, a4, a5, a6, a7, a8, a9⟩ := matchAt_bytes h1
  have b0 := (matchAt_bytes h2).1
  interval_cases d
  · exact absurd (a1.symm.trans b0) (by simp)
  · rcases a2 with a | a <;> exact absurd (a.symm.trans b0) (by simp)
  · exact absurd (a3.symm.trans b0) (by simp)
  · rcases a4 with a | a <;> exact absurd (a.symm.trans b0) (by simp)
  · exact absurd (a5.symm.trans b0) (by simp)
  · rcases a6 with a | a <;> exact absurd (a.symm.trans b0) (by simp)
  · exact absurd (a7.symm.trans b0) (by simp)
  · exact absurd (a8.symm.trans b0) (by simp)
  · exact absurd (a9.symm.trans b0) (by simp)

/-- Lemma that `wideMatch` only reads the `2 * s.length` bytes of its window. -/
theorem wideMatch_congr (s : List Nat) :
    ∀ (i : Nat) (b1 b2 : List Nat),
      (∀ j, i ≤ j → j < i + 2 * s.length → b1[j]? = b2[j]?) →
      wideMatch s i b1 = wideMatch s i b2 := by
  induction s with
  | nil => intro i b1 b2 _; rfl
  | cons c rest ih =>
    intro i b1 b2 hagree
    have e1 : b1[i]? = b2[i]? :=
      hagree i (by omega) (by simp only [List.length_cons]; omega)
    have e2 : b1[i + 1]? = b2[i + 1]? :=
      hagree (i + 1) (by omega) (by simp only [List.length_cons]; omega)
    have eru : readUnit b1 i = readUnit b2 i := by
      unfold readUnit; rw [e1, e2]
    cases hru : readUnit b2 i with
    | none => rw [wideMatch, wideMatch, eru, hru]
    | some u =>
      rw [wideMatch, wideMatch, eru, hru]
      simp only []
      by_cases e : towlower u = towlower c
      · rw [if_pos e, if_pos e]
        by_cases hc : c = 0
        · rw [if_pos hc, if_pos hc]
        · rw [if_neg hc, if_neg hc]
          exact ih (i + 2) b1 b2
            (fun j hj1 hj2 => hagree j (by omega)
              (by simp only [List.length_cons]; omega))
      · rw [if_neg e, if_neg e]

/-- Lemma that `matchAt` only depends on the bytes of its window. -/
theorem matchAt_congr {i : Nat} {b1 b2 : List Nat}
    (h : ∀ j, i ≤ j → j < i + 10 → b1[j]? = b2[j]?) :
    matchAt b1 i = matchAt b2 i := by
  unfold matchAt
  rw [wideMatch_congr searchUnits i b1 b2 (by simpa [searchUnits] using h)]

/-- When the whole window is inside the buffer, the comparison cannot
fault. -/
theorem wideMatch_total (s : List Nat) :
    ∀ (i : Nat) (buf : List Nat), i + 2 * s.length ≤ buf.length →
      ∃ t, wideMatch s i buf = some t := by
  induction s with
  | nil => intro i buf _; exact ⟨true, rfl⟩
  | cons c rest ih =>
    intro i buf hlen
    simp only [List.length_cons] at hlen
    have hi : i < buf.length := by omega
    have hi1 : i + 1 < buf.length := by omega
    obtain ⟨lo, hlo⟩ : ∃ lo, buf[i]? = some lo := ⟨buf[i], List.getElem?_eq_some.mpr ⟨hi, rfl⟩⟩
    obtain ⟨hi2, hhi⟩ : ∃ x, buf[i + 1]? = some x :=
      ⟨buf[i + 1], List.getElem?_eq_some.mpr ⟨hi1, rfl⟩⟩
    have hr : readUnit buf i = some (lo + 256 * hi2) := by
      unfold readUnit; rw [hlo, hhi]
    rw [wideMatch, hr]
    simp only []
    by_cases e : towlower (lo + 256 * hi2) = towlower c
    · rw [if_pos e]
      by_cases hc : c = 0
      · rw [if_pos hc]; exact ⟨true, rfl⟩
      · rw [if_neg hc]; exact ih (i + 2) buf (by omega)
    · rw [if_neg e]; exact ⟨false, rfl⟩

theorem writeList_length : ∀ (bs buf : List Nat) (i : Nat),
    (writeList buf i bs).length = buf.length := by
  intro bs
  induction bs with
  | nil => intro buf i; rfl
  | cons b rest ih =>
    intro buf i
    rw [writeList, ih]
    simp

theorem writeList_outside : ∀ (bs buf : List Nat) (i j : Nat),
    (j < i ∨ i + bs.length ≤ j) → (writeList buf i bs)[j]? = buf[j]? := by
  intro bs
  induction bs with
  | nil => intro buf i j _; rfl
  | cons b rest ih =>
    intro buf i j hj
    simp only [List.length_cons] at hj
    rw [writeList, ih _ _ _ (by omega)]
    exact List.getElem?_set_ne (by omega)

theorem writeList_inside : ∀ (bs buf : List Nat) (i d : Nat),
    d < bs.length → i + bs.length ≤ buf.length →
    (writeList buf i bs)[i + d]? = bs[d]? := by
  intro bs
  induction bs with
  | nil => intro buf i d hd _; simp at hd
  | cons b rest ih =>
    intro buf i d hd hlen
    simp only [List.length_cons] at hd hlen
    rw [writeList]
    cases d with
    | zero =>
      rw [writeList_outside _ _ _ _ (Or.inl (by omega))]
      simpa using List.getElem?_set_eq_of_lt b (by omega)
    | succ d =>
      have harr : i + (d + 1) = (i + 1) + d := by omega
      rw [harr, ih _ _ _ (by omega) (by simp; omega)]
      simp

theorem patchSim_length (orig : List Nat) : ∀ n, (patchSim orig n).length = orig.length := by
  intro n
  induction n with
  | zero => rfl
  | succ n ih =>
    rw [patchSim]
    by_cases hm : matchAt orig n
    · rw [if_pos hm, writeList_length, ih]
    · rw [if_neg hm, ih]

theorem patchSim_agree (orig : List Nat) : ∀ (n j : Nat),
    (∀ k, k < n → matchAt orig k = true → j < k ∨ k + 10 ≤ j) →
    (patchSim orig n)[j]? = orig[j]? := by
  intro n
  induction n with
  | zero => intro j _; rfl
  | succ n ih =>
    intro j hj
    rw [patchSim]
    by_cases hm : matchAt orig n
    · rw [if_pos hm,
        writeList_outside _ _ _ _ (by simpa [replaceBytes] using hj n (by omega) hm)]
      exact ih j (fun k hk => hj k (by omega))
    · rw [if_neg hm]
      exact ih j (fun k hk => hj k (by omega))

theorem patchSim_window (orig : List Nat) : ∀ (n i d : Nat),
    i < n → matchAt orig i = true → d < 10 →
    (patchSim orig n)[i + d]? = replaceBytes[d]? := by
  intro n
  induction n with
  | zero => intro i d h; omega
  | succ n ih =>
    intro i d hin hm hd
    rw [patchSim]
    by_cases hi : i = n
    · subst hi
      rw [if_pos hm]
      exact writeList_inside _ _ _ _ (by simpa [replaceBytes] using hd)
        (by rw [patchSim_length]; simpa [replaceBytes] using matchAt_lt_length hm)
    · have hlt : i < n := by omega
      by_cases hmn : matchAt orig n
      · have hfar : n + 10 ≤ i + 10 ∨ i + 10 ≤ n := by
          by_contra hcon
          push_neg at hcon
          exact matchAt_no_overlap hm
            (by have : n = i + (n - i) := by omega
                rw [this] at hmn; exact hmn)
            (by omega) (by omega)
        have hsep : i + 10 ≤ n := by omega
        rw [if_pos hmn, writeList_outside _ _ _ _ (Or.inl (by omega))]
        exact ih i d hlt hm hd
      · rw [if_neg hmn]
        exact ih i d hlt hm hd

theorem replaceBytes_mid {d : Nat} (h1 : 1 ≤ d) (h9 : d ≤ 9) :
    ∃ v, replaceBytes[d]? = some v ∧ v ≠ 46 := by
  interval_cases d <;> exact ⟨_, rfl, by decide⟩

theorem patchSim_frontier (orig : List Nat) (i : Nat) (hw : i + 10 ≤ orig.length) :
    matchAt (patchSim orig i) i = matchAt orig i := by
  by_cases hex : ∃ k, k < i ∧ matchAt orig k = true ∧ i < k + 10
  · obtain ⟨k, hk, hmk, hov⟩ := hex
    obtain ⟨v, hv, hv46⟩ := replaceBytes_mid (d := i - k) (by omega) (by omega)
    have hvk : (patchSim orig i)[i]? = some v := by
      have harr : i = k + (i - k) := by omega
      calc (patchSim orig i)[i]? = (patchSim orig i)[k + (i - k)]? := by rw [← harr]
        _ = replaceBytes[i - k]? := patchSim_window orig i k (i - k) hk hmk (by omega)
        _ = some v := hv
    have hb : matchAt (patchSim orig i) i = false := by
      cases hmb : matchAt (patchSim orig i) i with
      | false => rfl
      | true =>
        have hc := (matchAt_bytes hmb).1
        rw [hvk] at hc
        exact absurd (Option.some_inj.mp hc) hv46
    have ho : matchAt orig i = false := by
      cases hmo : matchAt orig i with
      | false => rfl
      | true =>
        exact absurd (matchAt_no_overlap hmk
          (by have : i = k + (i - k) := by omega
              rw [this] at hmo; exact hmo) (by omega) (by omega)) (by simp)
    rw [hb, ho]
  · push_neg at hex
    refine matchAt_congr (fun j hj1 hj2 => ?_)
    refine patchSim_agree orig i j (fun k hk hmk => ?_)
    have := hex k hk hmk
    omega

theorem bcdLoop_patchSim (orig : List Nat) : ∀ (k i : Nat),
    i + k + 10 ≤ orig.length →
    bcdLoop k i (patchSim orig i) = some (patchSim orig (i + k)) := by
  intro k
  induction k with
  | zero => intro i _; simp [bcdLoop]
  | succ k ih =>
    intro i h
    have hw : i + 10 ≤ orig.length := by omega
    have hlen : i + 2 * searchUnits.length ≤ (patchSim orig i).length := by
      rw [patchSim_length]
      simp only [searchUnits, List.length_cons, List.length_nil]
      omega
    obtain ⟨t, ht⟩ := wideMatch_total searchUnits i (patchSim orig i) hlen
    have hm : matchAt (patchSim orig i) i = t := by
      unfold matchAt
      rw [ht]
      cases t <;> rfl
    have hmo : matchAt orig i = t := (patchSim_frontier orig i hw).symm.trans hm
    rw [bcdLoop, ht]
    simp only []
    have hstep : (if t = true then writeList (patchSim orig i) i replaceBytes
        else patchSim orig i) = patchSim orig (i + 1) := by
      rw [patchSim, hmo]
    rw [hstep, ih (i + 1) (by omega)]
    have harr : i + 1 + k = i + (k + 1) := by omega
    rw [harr]

theorem bcdBound_eq {len : Nat} (h10 : 10 ≤ len) (hW : len < W64) :
    bcdBound len = len - 10 := by
  have h64 : W64 = 18446744073709551616 := by norm_num [W64]
  unfold bcdBound
  rw [h64]
  rw [h64] at hW
  omega

/-- C1: the scan bound `len - sizeof ( search )` is computed in
unsigned `size_t` arithmetic with no underflow guard: for an empty
buffer the bound wraps to `2 ^ 64 - 10`, the loop iterates and its very
first window read is outside the buffer (the claim requires zero
iterations and no out-of-bounds access for `len < 10`). -/
theorem C1_bound_underflow :
    bcdBound 0 = W64 - 10 ∧ efi_patch_bcd false [] = none := by
  have h64 : W64 = 18446744073709551616 := by norm_num [W64]
  constructor
  · show (0 + W64 - 10) % W64 = W64 - 10
    rw [h64]
  · unfold efi_patch_bcd
    rw [if_neg (by decide)]
    show bcdLoop (bcdBound 0) 0 [] = none
    have h1 : bcdBound 0 = (W64 - 11) + 1 := by
      show (0 + W64 - 10) % W64 = (W64 - 11) + 1
      rw [h64]
    rw [h1, bcdLoop]
    have hnone : wideMatch searchUnits 0 [] = none := by decide
    rw [hnone]

/-- C3 counterexample: a ten-byte buffer holding exactly the
case-insensitive token (with terminator) at offset 0.  The window
matches and the claim requires it to be overwritten with `.efi`, but
the loop bound `i < len - 10` admits no iteration, so the patcher
returns the buffer unchanged (its `'x'` byte still in place). -/
theorem C3_flush_end_match_not_patched :
    matchAt exeBuf 0 = true ∧ efi_patch_bcd false exeBuf = some exeBuf ∧
      writeList exeBuf 0 replaceBytes ≠ exeBuf := by
  decide

/-- C3 (amended): with raw-BCD mode off and a buffer of at least the
token width (ten bytes), the patcher always succeeds, keeps the length,
overwrites every window at a position `i` with `i + 10 < len` that
case-insensitively equals the token followed by its terminator with the
`.efi` replacement bytes, and leaves every byte outside those replaced
windows unchanged.  (Amendment forced by the counterexample: the scan
bound `i < len - 10` excludes a match whose window ends exactly at the
buffer end, so only positions with `i + 10 < len` are patched.) -/
theorem C3_patch_characterization (buf : List Nat)
    (h10 : 10 ≤ buf.length) (hW : buf.length < W64) :
    ∃ out, efi_patch_bcd false buf = some out ∧
      out.length = buf.length ∧
      (∀ i d, i + 10 < buf.length → matchAt buf i = true → d < 10 →
        out[i + d]? = replaceBytes[d]?) ∧
      (∀ j, (∀ i, i + 10 < buf.length → matchAt buf i = true → j < i ∨ i + 10 ≤ j) →
        out[j]? = buf[j]?) := by
  refine ⟨patchSim buf (buf.length - 10), ?_, patchSim_length buf _, ?_, ?_⟩
  · unfold efi_patch_bcd
    rw [if_neg (by decide), bcdBound_eq h10 hW]
    have hrun := bcdLoop_patchSim buf (buf.length - 10) 0 (by omega)
    simp only [Nat.zero_add] at hrun
    exact hrun
  · intro i d hi hm hd
    exact patchSim_window buf _ i d (by omega) hm hd
  · intro j hj
    exact patchSim_agree buf _ j (fun k hk hmk => hj k (by omega) hmk)

/-- C3 witness: the amended characterization applied to a concrete
twelve-byte buffer with a match at offset 0. -/
theorem C3_patch_characterization_witness :
    10 ≤ demoBuf.length ∧
    (∃ out, efi_patch_bcd false demoBuf = some out ∧
      out.length = demoBuf.length ∧
      (∀ i d, i + 10 < demoBuf.length → matchAt demoBuf i = true → d < 10 →
        out[i + d]? = replaceBytes[d]?) ∧
      (∀ j, (∀ i, i + 10 < demoBuf.length → matchAt demoBuf i = true → j < i ∨ i + 10 ≤ j) →
        out[j]? = demoBuf[j]?)) :=
  ⟨by decide, C3_patch_characterization demoBuf (by decide) (by decide)⟩

/-- C4: with raw-BCD mode enabled the patcher returns immediately and
the buffer is byte-for-byte unchanged, whatever its content. -/
theorem C4_rawbcd_passthrough (buf : List Nat) : efi_patch_bcd true buf = some buf := rfl

theorem range_map_getElem? (f : Nat → Nat) (cap n : Nat) :
    ((List.range cap).map f)[n]? = if n < cap then some (f n) else none := by
  by_cases h : n < cap
  · rw [if_pos h, List.getElem?_map, List.getElem?_range h]
    rfl
  · rw [if_neg h]
    apply List.getElem?_eq_none
    simpa using Nat.le_of_not_lt h

theorem updateMarker_length (cap : Nat) (m nm : List Nat) :
    (updateMarker cap m nm).length = cap := by
  simp [updateMarker]

theorem padName_length (cap : Nat) (nm : List Nat) : (padName cap nm).length = cap := by
  simp [padName]

theorem updateMarker_pad {cap : Nat} {m : List Nat} (hm : m.getD (cap - 1) 0 = 0)
    (nm : List Nat) : updateMarker cap m nm = padName cap nm := by
  apply List.ext_getElem?
  intro n
  unfold updateMarker padName
  rw [range_map_getElem?, range_map_getElem?]
  by_cases h : n < cap
  · rw [if_pos h, if_pos h]
    by_cases h2 : n < cap - 1
    · rw [if_pos h2, if_pos h2]
    · rw [if_neg h2, if_neg h2]
      have hn : n = cap - 1 := by omega
      rw [hn, hm]
  · rw [if_neg h, if_neg h]

theorem padName_last (cap : Nat) (nm : List Nat) : (padName cap nm).getD (cap - 1) 0 = 0 := by
  rw [List.getD_eq_getElem?_getD]
  unfold padName
  rw [range_map_getElem?]
  by_cases h : cap - 1 < cap
  · rw [if_pos h, if_neg (by omega)]
    rfl
  · rw [if_neg h]
    rfl

theorem updateMarker_last {cap : Nat} {m : List Nat} (hm : m.getD (cap - 1) 0 = 0)
    (nm : List Nat) : (updateMarker cap m nm).getD (cap - 1) 0 = 0 := by
  rw [updateMarker_pad hm]
  exact padName_last cap nm

theorem replicate_getD_zero (n j : Nat) : (List.replicate n (0 : Nat)).getD j 0 = 0 := by
  rw [List.getD_eq_getElem?_getD, List.getElem?_replicate]
  split <;> rfl

theorem foldMarker_lastBoot (cap : Nat) (arch : List Nat) :
    ∀ (entries : List (List Nat × Nat)) (m : List Nat), m.getD (cap - 1) 0 = 0 →
      foldMarker cap arch m entries =
        (match lastBoot arch entries with
         | none => m
         | some nm => padName cap nm) := by
  intro entries
  induction entries with
  | nil => intro m _; rfl
  | cons p rest ih =>
    intro m hm
    rw [foldMarker, lastBoot]
    by_cases hb : isBootName arch p.1 = true
    · rw [if_pos hb, if_pos hb, updateMarker_pad hm, ih (padName cap p.1) (padName_last cap p.1)]
      cases lastBoot arch rest with
      | none => rfl
      | some nm => rfl
    · rw [if_neg hb, if_neg hb, ih m hm]
      cases lastBoot arch rest with
      | none => rfl
      | some nm => rfl

theorem lastBoot_none_iff (arch : List Nat) : ∀ (entries : List (List Nat × Nat)),
    lastBoot arch entries = none ↔ ∀ p ∈ entries, isBootName arch p.1 = false := by
  intro entries
  induction entries with
  | nil => simp [lastBoot]
  | cons p rest ih =>
    rw [lastBoot]
    cases hl : lastBoot arch rest with
    | some nm =>
      simp only []
      constructor
      · intro h; cases h
      · intro h
        have h0 : lastBoot arch rest = none :=
          ih.mpr (fun q hq => h q (List.mem_cons_of_mem _ hq))
        rw [hl] at h0
        cases h0
    | none =>
      simp only []
      by_cases hb : isBootName arch p.1 = true
      · rw [if_pos hb]
        constructor
        · intro h; cases h
        · intro h
          rw [h p (List.mem_cons_self _ _)] at hb
          cases hb
      · rw [if_neg hb]
        constructor
        · intro _ q hq
          rcases List.mem_cons.mp hq with hq1 | hq2
          · rw [hq1]
            cases h2 : isBootName arch p.1 with
            | false => rfl
            | true => exact absurd h2 hb
          · exact (ih.mp hl) q hq2
        · intro _; rfl

theorem lastBoot_some_boot (arch : List Nat) : ∀ (entries : List (List Nat × Nat)) (nm : List Nat),
    lastBoot arch entries = some nm → isBootName arch nm = true ∧ ∃ p ∈ entries, p.1 = nm := by
  intro entries
  induction entries with
  | nil => intro nm h; cases h
  | cons p rest ih =>
    intro nm h
    rw [lastBoot] at h
    cases hl : lastBoot arch rest with
    | some nm2 =>
      rw [hl] at h
      have hnm : nm2 = nm := Option.some_inj.mp h
      obtain ⟨hb, q, hq, hq1⟩ := ih nm2 hl
      exact ⟨hnm ▸ hb, q, List.mem_cons_of_mem _ hq, hnm ▸ hq1⟩
    | none =>
      rw [hl] at h
      by_cases hb : isBootName arch p.1 = true
      · rw [if_pos hb] at h
        have hnm : p.1 = nm := Option.some_inj.mp h
        exact ⟨hnm ▸ hb, p, List.mem_cons_self _ _, hnm⟩
      · rw [if_neg hb] at h
        cases h

theorem wcscasecmpZ_head {a b : List Nat} (h : wcscasecmpZ a b = true) :
    (a = [] ∧ b = []) ∨ ∃ x xs y ys, a = x :: xs ∧ b = y :: ys ∧ towlower x = towlower y := by
  cases a with
  | nil =>
    cases b with
    | nil => exact Or.inl ⟨rfl, rfl⟩
    | cons y ys => rw [wcscasecmpZ] at h; cases h
  | cons x xs =>
    cases b with
    | nil => rw [wcscasecmpZ] at h; cases h
    | cons y ys =>
      rw [wcscasecmpZ] at h
      by_cases e : towlower x = towlower y
      · exact Or.inr ⟨x, xs, y, ys, rfl, rfl, e⟩
      · rw [if_neg e] at h; cases h

theorem isBootName_head {arch nm : List Nat} (h : isBootName arch nm = true)
    (ha : arch ≠ []) (hz : ∀ c ∈ arch, c ≠ 0) :
    ∃ n0 ns, nm = n0 :: ns ∧ n0 ≠ 0 := by
  unfold isBootName at h
  rcases (by simpa using h :
      wcscasecmpZ nm arch = true ∨ wcscasecmpZ nm bootmgfwStr = true) with h1 | h2
  · rcases wcscasecmpZ_head h1 with ⟨hnm, harch⟩ | ⟨x, xs, y, ys, hx, hb2, e⟩
    · exact absurd harch ha
    · have hy : y ≠ 0 := hz y (by rw [hb2]; exact List.mem_cons_self _ _)
      refine ⟨x, xs, hx, fun hx0 => ?_⟩
      rw [hx0] at e
      have : towlower y = 0 := by rw [← e]; decide
      exact hy (towlower_inv_0 this)
  · rcases wcscasecmpZ_head h2 with ⟨hnm, hboot⟩ | ⟨x, xs, y, ys, hx, hb2, e⟩
    · exact absurd hboot (by decide)
    · have hy : y = 98 := by
        rw [show bootmgfwStr = 98 :: [111, 111, 116, 109, 103, 102, 119, 46, 101, 102, 105]
          from rfl] at hb2
        exact (List.cons.injEq _ _ _ _ ▸ hb2 : _ ∧ _).1.symm ▸ rfl
      refine ⟨x, xs, hx, fun hx0 => ?_⟩
      rw [hx0, hy] at e
      exact absurd e (by decide)

theorem classify_boot_iff {arch name : List Nat} {tag : Option FileClass}
    (h : classify arch name = some tag) :
    (tag = some FileClass.boot) ↔ isBootName arch name = true := by
  unfold classify at h
  by_cases hb : isBootName arch name = true
  · rw [if_pos hb] at h
    have htag : some FileClass.boot = tag := Option.some_inj.mp h
    simp [← htag, hb]
  · rw [if_neg hb] at h
    constructor
    · intro htag
      exfalso
      rw [htag] at h
      by_cases hbcd : wcscasecmpZ name bcdStr = true
      · rw [if_pos hbcd] at h
        have := Option.some_inj.mp h
        cases this
      · rw [if_neg hbcd] at h
        cases hw : wimCheck name with
        | none => rw [hw] at h; cases h
        | some t =>
          rw [hw] at h
          cases t
          · simp only [] at h
            have := Option.some_inj.mp h
            cases this
          · simp only [] at h
            have := Option.some_inj.mp h
            cases this
    · intro hb2
      exact absurd hb2 hb

theorem wideStrMatch_total (s : List Nat) : ∀ (i : Nat) (name : List Nat),
    i + s.length ≤ name.length + 1 → ∃ t, wideStrMatch s i name = some t := by
  induction s with
  | nil => intro i name _; exact ⟨true, rfl⟩
  | cons c rest ih =>
    intro i name hlen
    simp only [List.length_cons] at hlen
    have hget : ∃ u, wideGet name i = some u := by
      unfold wideGet
      by_cases hi : i < name.length
      · rw [if_pos hi]
        exact ⟨name[i], List.getElem?_eq_some.mpr ⟨hi, rfl⟩⟩
      · rw [if_neg hi, if_pos (by omega)]
        exact ⟨0, rfl⟩
    obtain ⟨u, hu⟩ := hget
    rw [wideStrMatch, hu]
    simp only []
    by_cases e : towlower u = towlower c
    · rw [if_pos e]
      by_cases hc : c = 0
      · rw [if_pos hc]; exact ⟨true, rfl⟩
      · rw [if_neg hc]
        apply ih
        have hi2 : i < name.length := by
          by_contra hcon
          have hie : i = name.length := by omega
          unfold wideGet at hu
          rw [if_neg (by omega), if_pos hie] at hu
          have hu0 : u = 0 := (Option.some_inj.mp hu).symm
          rw [hu0] at e
          have hc0 : towlower c = 0 := by rw [← e]; decide
          exact hc (towlower_inv_0 hc0)
        omega
    · rw [if_neg e]; exact ⟨false, rfl⟩

theorem wimCheck_total {name : List Nat} (h4 : 4 ≤ name.length) (hW : name.length < W64) :
    ∃ t, wimCheck name = some t := by
  unfold wimCheck
  have h64 : W64 = 18446744073709551616 := by norm_num [W64]
  have hstart : (name.length + W64 - 4) % W64 = name.length - 4 := by
    rw [h64]
    rw [h64] at hW
    omega
  rw [hstart]
  apply wideStrMatch_total
  simp only [wimSuffixZ, List.length_cons, List.length_nil]
  omega

theorem runEntries_ok (cap maxFiles : Nat) (arch : List Nat) :
    ∀ (entries : List (List Nat × Nat)) (st : EState),
      (∀ p ∈ entries, classify arch p.1 ≠ none) →
      st.table.length + entries.length ≤ maxFiles →
      runEntries cap maxFiles arch st entries =
        (⟨st.table ++ entries.map (descOf cap arch),
          foldMarker cap arch st.marker entries⟩, none) := by
  intro entries
  induction entries with
  | nil => intro st _ _; simp [runEntries, foldMarker]
  | cons p rest ih =>
    obtain ⟨name, size⟩ := p
    intro st hsafe hlen
    simp only [List.length_cons] at hlen
    rw [runEntries]
    unfold stepEntry
    rw [if_neg (by omega)]
    cases hc : classify arch name with
    | none => exact absurd hc (hsafe (name, size) (List.mem_cons_self _ _))
    | some tag =>
      simp only []
      rw [ih _ (fun q hq => hsafe q (List.mem_cons_of_mem _ hq))
        (by simp only [List.length_append, List.length_cons, List.length_nil]; omega)]
      have hdesc : (⟨narrowName cap name, size, patchOf tag⟩ : VdiskFile)
          = descOf cap arch (name, size) := by
        unfold descOf
        rw [hc]
        rfl
      have hmark : (if tag = some FileClass.boot then updateMarker cap st.marker name
            else st.marker)
          = (if isBootName arch name = true then updateMarker cap st.marker name
            else st.marker) := by
        by_cases hb : isBootName arch name = true
        · rw [if_pos hb, if_pos ((classify_boot_iff hc).mpr hb)]
        · rw [if_neg hb, if_neg (fun ht => hb ((classify_boot_iff hc).mp ht))]
      rw [hdesc, hmark, foldMarker]
      simp

theorem runEntries_overflow (cap maxFiles : Nat) (arch : List Nat) :
    ∀ (entries : List (List Nat × Nat)) (st : EState),
      (∀ p ∈ entries, classify arch p.1 ≠ none) →
      st.table.length ≤ maxFiles →
      maxFiles < st.table.length + entries.length →
      runEntries cap maxFiles arch st entries =
        (⟨st.table ++ (entries.take (maxFiles - st.table.length)).map (descOf cap arch),
          foldMarker cap arch st.marker (entries.take (maxFiles - st.table.length))⟩,
         some Outcome.tooManyFiles) := by
  intro entries
  induction entries with
  | nil =>
    intro st _ hle hgt
    simp at hgt
    omega
  | cons p rest ih =>
    obtain ⟨name, size⟩ := p
    intro st hsafe hle hgt
    simp only [List.length_cons] at hgt
    by_cases hfull : maxFiles ≤ st.table.length
    · have heq : maxFiles - st.table.length = 0 := by omega
      rw [runEntries]
      unfold stepEntry
      rw [if_pos hfull, heq]
      simp [foldMarker]
    · have heq : maxFiles - st.table.length = (maxFiles - (st.table.length + 1)) + 1 := by
        omega
      rw [runEntries]
      unfold stepEntry
      rw [if_neg hfull]
      cases hc : classify arch name with
      | none => exact absurd hc (hsafe (name, size) (List.mem_cons_self _ _))
      | some tag =>
        simp only []
        rw [ih _ (fun q hq => hsafe q (List.mem_cons_of_mem _ hq))
          (by simp only [List.length_append, List.length_cons, List.length_nil]; omega)
          (by simp only [List.length_append, List.length_cons, List.length_nil]; omega)]
        have hdesc : (⟨narrowName cap name, size, patchOf tag⟩ : VdiskFile)
            = descOf cap arch (name, size) := by
          unfold descOf
          rw [hc]
          rfl
        have hmark : (if tag = some FileClass.boot then updateMarker cap st.marker name
              else st.marker)
            = (if isBootName arch name = true then updateMarker cap st.marker name
              else st.marker) := by
          by_cases hb : isBootName arch name = true
          · rw [if_pos hb, if_pos ((classify_boot_iff hc).mpr hb)]
          · rw [if_neg hb, if_neg (fun ht => hb ((classify_boot_iff hc).mp ht))]
        rw [hdesc, hmark, heq, List.take_succ_cons, foldMarker]
        simp only [List.length_append, List.length_cons, List.length_nil, List.map_cons]
        rw [List.append_assoc]
        simp

theorem runEntries_marker_inv (cap maxFiles : Nat) (arch : List Nat) :
    ∀ (entries : List (List Nat × Nat)) (st : EState),
      st.marker.length = cap → st.marker.getD (cap - 1) 0 = 0 →
      (runEntries cap maxFiles arch st entries).1.marker.length = cap ∧
      (runEntries cap maxFiles arch st entries).1.marker.getD (cap - 1) 0 = 0 := by
  intro entries
  induction entries with
  | nil => intro st h1 h2; exact ⟨h1, h2⟩
  | cons p rest ih =>
    obtain ⟨name, size⟩ := p
    intro st h1 h2
    rw [runEntries]
    unfold stepEntry
    by_cases hfull : maxFiles ≤ st.table.length
    · rw [if_pos hfull]
      exact ⟨h1, h2⟩
    · rw [if_neg hfull]
      cases hc : classify arch name with
      | none =>
        simp only []
        exact ⟨h1, h2⟩
      | some tag =>
        simp only []
        apply ih
        · by_cases hb : tag = some FileClass.boot
          · rw [if_pos hb, updateMarker_length]
          · rw [if_neg hb]; exact h1
        · by_cases hb : tag = some FileClass.boot
          · rw [if_pos hb]; exact updateMarker_last h2 name
          · rw [if_neg hb]; exact h2

theorem efi_extract_fst (cap maxFiles : Nat) (path : List Nat)
    (entries : List (List Nat × Nat)) :
    (efi_extract cap maxFiles path entries).1 =
      (runEntries cap maxFiles (efi_bootarch path) ⟨[], List.replicate cap 0⟩ entries).1 := by
  unfold efi_extract
  cases hrun : runEntries cap maxFiles (efi_bootarch path) ⟨[], List.replicate cap 0⟩ entries with
  | mk st o =>
    cases o with
    | none =>
      simp only []
      split <;> rfl
    | some o2 => rfl

/-- C10: whatever was enumerated and however the scan ended, the
`bootmgfw` marker keeps its full capacity and its final code unit keeps
the zero it was initialized with — every `memcpy` into it copies
exactly one CHAR16 fewer than the capacity — so the marker is always a
NUL-terminated wide string. -/
theorem C10_marker_terminated (cap maxFiles : Nat) (path : List Nat)
    (entries : List (List Nat × Nat)) (hcap : 1 ≤ cap) :
    (efi_extract cap maxFiles path entries).1.marker.length = cap ∧
    (efi_extract cap maxFiles path entries).1.marker.getD (cap - 1) 0 = 0 ∧
    ∃ k, k < cap ∧ (efi_extract cap maxFiles path entries).1.marker.getD k 0 = 0 := by
  rw [efi_extract_fst]
  obtain ⟨h1, h2⟩ := runEntries_marker_inv cap maxFiles (efi_bootarch path) entries
    ⟨[], List.replicate cap 0⟩ (by simp) (replicate_getD_zero cap (cap - 1))
  exact ⟨h1, h2, cap - 1, by omega, h2⟩

/-- C10 witness: the marker invariant at a concrete scan whose single
entry updates the marker. -/
theorem C10_marker_terminated_witness :
    (efi_extract 4 2 [80] w10entries).1.marker.length = 4 ∧
    (efi_extract 4 2 [80] w10entries).1.marker.getD (4 - 1) 0 = 0 ∧
    ∃ k, k < 4 ∧ (efi_extract 4 2 [80] w10entries).1.marker.getD k 0 = 0 :=
  C10_marker_terminated 4 2 [80] w10entries (by decide)

/-- C6 counterexample: two entries and a capacity of eight, so the
claim requires a table of exactly two descriptors, but the first
entry's one-character name hits the unguarded `.wim` suffix read and
the scan stops with only one descriptor added. -/
theorem C6_scan_aborts_midway :
    ceEntries6.length = 2 ∧ (2 : Nat) ≤ 8 ∧
    (efi_extract 16 8 [80] ceEntries6).1.table.length = 1 ∧
    (efi_extract 16 8 [80] ceEntries6).2 = Outcome.oobFault := by
  decide

/-- C6 (amended): provided every enumerated name is classified without
the unguarded out-of-bounds suffix read, a scan of `N ≤ MAX_FILES`
entries yields exactly the `N` descriptors in firmware order and never
reports the capacity error, while a scan of more than `MAX_FILES`
entries dies with the capacity error after filling exactly the first
`MAX_FILES` descriptors, processing no further entries. -/
theorem C6_table_bound (cap maxFiles : Nat) (path : List Nat)
    (entries : List (List Nat × Nat))
    (hsafe : ∀ p ∈ entries, classify (efi_bootarch path) p.1 ≠ none) :
    (entries.length ≤ maxFiles →
      (efi_extract cap maxFiles path entries).1.table
        = entries.map (descOf cap (efi_bootarch path)) ∧
      (efi_extract cap maxFiles path entries).2 ≠ Outcome.tooManyFiles) ∧
    (maxFiles < entries.length →
      (efi_extract cap maxFiles path entries).2 = Outcome.tooManyFiles ∧
      (efi_extract cap maxFiles path entries).1.table
        = (entries.take maxFiles).map (descOf cap (efi_bootarch path))) := by
  constructor
  · intro hlen
    have hrun := runEntries_ok cap maxFiles (efi_bootarch path) entries
      ⟨[], List.replicate cap 0⟩ hsafe (by simpa using hlen)
    unfold efi_extract
    rw [hrun]
    simp only []
    split
    · exact ⟨by simp, by simp⟩
    · exact ⟨by simp, by simp⟩
  · intro hlen
    have hrun := runEntries_overflow cap maxFiles (efi_bootarch path) entries
      ⟨[], List.replicate cap 0⟩ hsafe (by simp) (by simpa using hlen)
    unfold efi_extract
    rw [hrun]
    simp only []
    exact ⟨by simp, by simp⟩

/-- C6 witness: both branches of the amended claim at concrete inputs —
three safe entries against a capacity of two (capacity error after two
descriptors), and one safe entry against a capacity of four (full
table, no capacity error). -/
theorem C6_table_bound_witness :
    ((efi_extract 8 2 [80] w6entries).2 = Outcome.tooManyFiles ∧
     (efi_extract 8 2 [80] w6entries).1.table
       = (w6entries.take 2).map (descOf 8 (efi_bootarch [80]))) ∧
    ((efi_extract 8 4 [80] w7entries).1.table
       = w7entries.map (descOf 8 (efi_bootarch [80])) ∧
     (efi_extract 8 4 [80] w7entries).2 ≠ Outcome.tooManyFiles) :=
  ⟨(C6_table_bound 8 2 [80] w6entries (by decide)).2 (by decide),
   (C6_table_bound 8 4 [80] w7entries (by decide)).1 (by decide)⟩

/-- C7 counterexample: with capacity one and two entries both named
`bootmgfw.efi` the scan ends with the capacity fatal error even though
a boot entry matched — refuting "the scan ends with a fatal error if
and only if no enumerated entry matched". -/
theorem C7_capacity_error_despite_boot_match :
    (efi_extract 16 1 [80] ceEntries7).2 = Outcome.tooManyFiles ∧
    (efi_extract 16 1 [80] ceEntries7).2 ≠ Outcome.noBootFile (efi_bootarch [80]) ∧
    isBootName (efi_bootarch [80]) bootmgfwStr = true := by
  decide

/-- C7 (amended): for a scan that completes — at most `MAX_FILES`
entries, no classification fault, a nonempty NUL-free architecture
basename, and a marker of capacity at least two — the end-of-scan check
dies with the missing-boot-file error naming the expected architecture
file if and only if no enumerated entry matched the architecture boot
name or `bootmgfw.efi`; the table still holds all `N` descriptors. -/
theorem C7_missing_boot_check (cap maxFiles : Nat) (path : List Nat)
    (entries : List (List Nat × Nat))
    (hcap : 2 ≤ cap)
    (ha : efi_bootarch path ≠ [])
    (hz : ∀ c ∈ efi_bootarch path, c ≠ 0)
    (hsafe : ∀ p ∈ entries, classify (efi_bootarch path) p.1 ≠ none)
    (hlen : entries.length ≤ maxFiles) :
    ((efi_extract cap maxFiles path entries).2 = Outcome.noBootFile (efi_bootarch path) ↔
      ∀ p ∈ entries, isBootName (efi_bootarch path) p.1 = false) ∧
    (efi_extract cap maxFiles path entries).1.table.length = entries.length := by
  have hrun := runEntries_ok cap maxFiles (efi_bootarch path) entries
    ⟨[], List.replicate cap 0⟩ hsafe (by simpa using hlen)
  unfold efi_extract
  rw [hrun]
  simp only []
  have hfm := foldMarker_lastBoot cap (efi_bootarch path) entries (List.replicate cap 0)
    (replicate_getD_zero cap (cap - 1))
  cases hl : lastBoot (efi_bootarch path) entries with
  | none =>
    rw [hl] at hfm
    simp only [] at hfm
    rw [hfm, if_pos (replicate_getD_zero cap 0)]
    refine ⟨?_, by simp⟩
    simp only [List.length_map]
    constructor
    · intro _
      exact (lastBoot_none_iff _ _).mp hl
    · intro _
      trivial
  | some nm =>
    rw [hl] at hfm
    simp only [] at hfm
    rw [hfm]
    obtain ⟨hb, p, hp, hp1⟩ := lastBoot_some_boot _ entries nm hl
    obtain ⟨n0, ns, hnm, hn0⟩ := isBootName_head hb ha hz
    have hgd : (padName cap nm).getD 0 0 = n0 := by
      rw [List.getD_eq_getElem?_getD]
      unfold padName
      rw [range_map_getElem?, if_pos (by omega), if_pos (by omega), hnm]
      rfl
    rw [if_neg (by rw [hgd]; exact hn0)]
    refine ⟨?_, by simp⟩
    constructor
    · intro h
      exact absurd h (by simp)
    · intro hall
      exfalso
      have hfalse := hall p hp
      rw [hp1, hb] at hfalse
      cases hfalse

/-- C7 witness: a completed scan with a single `BCD` entry and no boot
candidate — the end-of-scan check fails and the table still holds the
descriptor. -/
theorem C7_missing_boot_check_witness :
    ((efi_extract 8 4 [80] w7entries).2 = Outcome.noBootFile (efi_bootarch [80]) ↔
      ∀ p ∈ w7entries, isBootName (efi_bootarch [80]) p.1 = false) ∧
    (efi_extract 8 4 [80] w7entries).1.table.length = w7entries.length :=
  C7_missing_boot_check 8 4 [80] w7entries (by decide) (by decide) (by decide)
    (by decide) (by decide)

/-- C9 counterexample: the first boot match (`"bb"`, the architecture
name for `cePath`) is silently overwritten by the later literal
`bootmgfw.efi` entry, so the marker ends holding the second match, not
the first as the claim states. -/
theorem C9_first_match_overwritten :
    (efi_extract 16 8 cePath ceEntries9).1.marker = padName 16 bootmgfwStr ∧
    isBootName (efi_bootarch cePath) [98, 98] = true ∧
    padName 16 bootmgfwStr ≠ padName 16 [98, 98] := by
  decide

/-- C9 (amended): at most one boot file is ever recorded (there is a
single marker buffer), and after a completed fault-free scan with at
least one boot match the marker holds the name of the LAST matching
entry — each later match overwrites the earlier record. -/
theorem C9_marker_last_match (cap maxFiles : Nat) (path : List Nat)
    (entries : List (List Nat × Nat)) (nm : List Nat)
    (hsafe : ∀ p ∈ entries, classify (efi_bootarch path) p.1 ≠ none)
    (hlen : entries.length ≤ maxFiles)
    (hlast : lastBoot (efi_bootarch path) entries = some nm) :
    (efi_extract cap maxFiles path entries).1.marker = padName cap nm := by
  have hrun := runEntries_ok cap maxFiles (efi_bootarch path) entries
    ⟨[], List.replicate cap 0⟩ hsafe (by simpa using hlen)
  rw [efi_extract_fst, hrun]
  simp only []
  rw [foldMarker_lastBoot cap (efi_bootarch path) entries (List.replicate cap 0)
    (replicate_getD_zero cap (cap - 1)), hlast]

/-- C9 witness: the amended claim at a concrete one-entry scan. -/
theorem C9_marker_last_match_witness :
    (efi_extract 16 4 [80] w9entries).1.marker = padName 16 bootmgfwStr :=
  C9_marker_last_match 16 4 [80] w9entries bootmgfwStr (by decide) (by decide) (by decide)

/-- C2: the suffix test has no minimum-length guard — for the
one-character name `"a"` and for the empty name the start index
`wcslen ( name ) - 4` wraps around in `size_t` arithmetic and the very
first comparison read lands outside the name buffer (the claim requires
a guarded no-match with no out-of-bounds read). -/
theorem C2_wim_suffix_underflow :
    wimCheck [97] = none ∧ wimCheck [] = none ∧
    wimCheck [97, 46, 119, 105, 109] = some true := by
  decide

/-- C5 counterexample: the one-character name `"a"` matches none of the
exact rules, so classification falls through to the suffix test, whose
unguarded read leaves the buffer — no rule is applied at all, against
the claim that every file name is classified by the first matching
rule. -/
theorem C5_short_name_no_classification : classify [80] [97] = none := by
  decide

/-- C5 (amended): for every file name that matches one of the exact
rules or has at least four characters (so that the unguarded suffix
read stays inside the name), classification succeeds, applies exactly
the first matching rule in the order architecture-boot /
`bootmgfw.efi`, then `BCD`, then `.wim` suffix, and attaches the BCD
patcher exactly to rule-3 names and the external WIM patch exactly to
rule-4 names. -/
theorem C5_classification (arch name : List Nat)
    (hsafe : (4 ≤ name.length ∧ name.length < W64) ∨ isBootName arch name = true
      ∨ wcscasecmpZ name bcdStr = true) :
    ∃ tag, classify arch name = some tag ∧
      ((tag = some FileClass.boot) ↔ isBootName arch name = true) ∧
      ((tag = some FileClass.bcd) ↔
        (isBootName arch name = false ∧ wcscasecmpZ name bcdStr = true)) ∧
      ((tag = some FileClass.wim) ↔
        (isBootName arch name = false ∧ wcscasecmpZ name bcdStr = false ∧
          wimCheck name = some true)) ∧
      (patchOf tag = PatchTag.bcdPatcher ↔ tag = some FileClass.bcd) ∧
      (patchOf tag = PatchTag.wimPatch ↔ tag = some FileClass.wim) := by
  by_cases hb : isBootName arch name = true
  · refine ⟨some FileClass.boot, ?_, by simp [hb], by simp [hb], by simp [hb],
      by decide, by decide⟩
    unfold classify
    rw [if_pos hb]
  · have hbf : isBootName arch name = false := by
      cases h2 : isBootName arch name with
      | false => rfl
      | true => exact absurd h2 hb
    by_cases hbcd : wcscasecmpZ name bcdStr = true
    · refine ⟨some FileClass.bcd, ?_, by simp [hbf], by simp [hbf, hbcd],
        by simp [hbcd], by decide, by decide⟩
      unfold classify
      rw [if_neg hb, if_pos hbcd]
    · have hbcdf : wcscasecmpZ name bcdStr = false := by
        cases h2 : wcscasecmpZ name bcdStr with
        | false => rfl
        | true => exact absurd h2 hbcd
      have h4 : 4 ≤ name.length ∧ name.length < W64 := by
        rcases hsafe with h | h | h
        · exact h
        · exact absurd h hb
        · exact absurd h hbcd
      obtain ⟨t, ht⟩ := wimCheck_total h4.1 h4.2
      cases t with
      | false =>
        refine ⟨none, ?_, by simp [hbf], by simp [hbf, hbcdf], by simp [hbf, hbcdf, ht],
          by decide, by decide⟩
        unfold classify
        rw [if_neg hb, if_neg hbcd, ht]
      | true =>
        refine ⟨some FileClass.wim, ?_, by simp [hbf], by simp [hbf, hbcdf],
          by simp [hbf, hbcdf, ht], by decide, by decide⟩
        unfold classify
        rw [if_neg hb, if_neg hbcd, ht]

/-- C5 witness: the amended classification applied to the concrete name
`"BCD"` against the architecture name `"X"` — rule 3 fires and the BCD
patcher is the attached strategy. -/
theorem C5_classification_witness :
    ∃ tag, classify [88] bcdStr = some tag ∧
      ((tag = some FileClass.boot) ↔ isBootName [88] bcdStr = true) ∧
      ((tag = some FileClass.bcd) ↔
        (isBootName [88] bcdStr = false ∧ wcscasecmpZ bcdStr bcdStr = true)) ∧
      ((tag = some FileClass.wim) ↔
        (isBootName [88] bcdStr = false ∧ wcscasecmpZ bcdStr bcdStr = false ∧
          wimCheck bcdStr = some true)) ∧
      (patchOf tag = PatchTag.bcdPatcher ↔ tag = some FileClass.bcd) ∧
      (patchOf tag = PatchTag.wimPatch ↔ tag = some FileClass.wim) :=
  C5_classification [88] bcdStr (Or.inr (Or.inr (by decide)))

/-- C8 counterexample: the firmware returns success from both the seek
and the read but delivers zero of the 4096 requested bytes — the
adapter does not treat this short read as fatal, it simply returns
(against the claim that a short read is an unrecoverable fatal
fault). -/
theorem C8_short_read_returns :
    efi_read_file 0 0 0 4096 = ReadOutcome.done 0 ∧ (0 : Nat) < 4096 := by
  decide

/-- C8 (amended): a non-success status from the seek aborts with the
seek diagnostic and its raw status, a non-success status from the read
aborts with the read diagnostic and its raw status, and on two success
statuses the adapter returns with however many bytes the firmware
delivered — it performs no short-read detection, retry, or recovery. -/
theorem C8_read_adapter (s r d l : Nat) :
    (s ≠ 0 → efi_read_file s r d l = ReadOutcome.fatalSeek s) ∧
    (s = 0 → r ≠ 0 → efi_read_file s r d l = ReadOutcome.fatalRead r) ∧
    (s = 0 → r = 0 → efi_read_file s r d l = ReadOutcome.done d) := by
  refine ⟨fun hs => ?_, fun hs hr => ?_, fun hs hr => ?_⟩
  · unfold efi_read_file
    rw [if_pos hs]
  · unfold efi_read_file
    rw [if_neg (by omega), if_pos hr]
  · unfold efi_read_file
    rw [if_neg (by omega), if_neg (by omega)]

/-- C8 witness: the three branches of the adapter at concrete statuses. -/
theorem C8_read_adapter_witness :
    efi_read_file 1 7 0 9 = ReadOutcome.fatalSeek 1 ∧
    efi_read_file 0 7 0 9 = ReadOutcome.fatalRead 7 ∧
    efi_read_file 0 0 5 9 = ReadOutcome.done 5 :=
  ⟨(C8_read_adapter 1 7 0 9).1 (by decide),
   (C8_read_adapter 0 7 0 9).2.1 rfl (by decide),
   (C8_read_adapter 0 0 5 9).2.2 rfl rfl⟩
